import Mathlib

/-!
Shallow embedding of the monitoring core of `rust-system-monitor`
(`src/app.rs`), together with proofs about its state operations.

Modelling conventions:
* Rust `u32`/`u64`/`usize` values are modelled as `Nat`.  None of the
  operations below performs arithmetic that can overflow a 64-bit counter
  in a way any statement here depends on; `usize` subtraction in the code
  is `saturating_sub`, which is exactly `Nat` subtraction.
* Rust `f32` process cpu readings are modelled as `Option ℚ`: `none` is
  NaN (incomparable), `some q` a finite numeric value.  `partial_cmp`
  returns `None` exactly when NaN is involved, which the model mirrors.
* The scalars pushed into the history series (global cpu %, memory %) are
  modelled as plain `ℚ`; no statement below depends on their values, only
  on how many samples are appended and in which order.
* The `sysinfo` provider (`System`, `Networks`, `Disks`) is external; a
  refresh is modelled by passing the freshly read `Snapshot` to the
  operation, and `System::process(pid)` / `Process::kill()` by a map
  `Nat → Option Bool` giving, for each pid the provider knows, the
  success flag its `kill()` call would report.
-/

namespace SysMonitor

/-- `ProcessInfo` of `src/app.rs` (pid, name, cpu_usage, memory, status,
start_time).  `cpu_usage : Option ℚ` models `f32` with `none` = NaN. -/
structure ProcessInfo where
  pid : Nat
  name : String
  cpu_usage : Option ℚ
  memory : Nat
  status : String
  start_time : Nat
deriving DecidableEq, Inhabited

/-- One entry of the provider's disk list: `disk.name()`,
`disk.total_space()`, `disk.available_space()`. -/
structure DiskRaw where
  name : String
  total : Nat
  available : Nat
deriving DecidableEq

/-- One entry of the provider's network-interface list, with its
cumulative `total_received()` / `total_transmitted()` counters. -/
structure NetRaw where
  name : String
  received : Nat
  transmitted : Nat
deriving DecidableEq

/-- One raw provider snapshot, as read by `refresh_all()` /
`Networks::refresh()` / `Disks::refresh()` in `App::update` and
`App::refresh`. -/
structure Snapshot where
  processes : List ProcessInfo
  globalCpu : ℚ
  usedMemory : Nat
  totalMemory : Nat
  networks : List NetRaw
  disks : List DiskRaw
deriving DecidableEq

/-- `SortBy` of `src/app.rs` (the spec calls these ByIdentifier, ByName,
ByCpu, ByMemory). -/
inductive SortBy where
  | Pid
  | Name
  | Cpu
  | Memory
deriving DecidableEq

/-- The core state of `App` (`src/app.rs`).  The `system`, `networks`
and `disks` provider handles are external and are modelled by the
`Snapshot` argument of each refreshing operation. -/
structure App where
  processes : List ProcessInfo
  selected_process : Nat
  current_tab : Nat
  sort_by : SortBy
  sort_ascending : Bool
  cpu_history : List ℚ
  memory_history : List ℚ
  network_history : List (Nat × Nat)
  disk_usage : List (String × Nat × Nat)
deriving DecidableEq

/-- The comparison of a linear order, as Rust `Ord::cmp` produces it
(used for `a.pid.cmp(&b.pid)`, `a.name.cmp(&b.name)`,
`a.memory.cmp(&b.memory)`). -/
def cmpOfLt {α : Type} [LinearOrder α] (a b : α) : Ordering :=
  if a < b then Ordering.lt else if a = b then Ordering.eq else Ordering.gt

/-- Rust `a.partial_cmp(&b).unwrap_or(std::cmp::Ordering::Equal)` on two
`f32` values: any comparison involving NaN (`none`) is incomparable and
resolves to `Equal`. -/
def cmpCpuVal (a b : Option ℚ) : Ordering :=
  match a, b with
  | some x, some y => cmpOfLt x y
  | _, _ => Ordering.eq

/-- The ascending comparator of `App::sort_processes` for each sort key
(the `sort_ascending` branches of the `match` in `src/app.rs`). -/
def cmpKey : SortBy → ProcessInfo → ProcessInfo → Ordering
  | SortBy.Pid, a, b => cmpOfLt a.pid b.pid
  | SortBy.Name, a, b => cmpOfLt a.name b.name
  | SortBy.Cpu, a, b => cmpCpuVal a.cpu_usage b.cpu_usage
  | SortBy.Memory, a, b => cmpOfLt a.memory b.memory

/-- The comparator actually passed to `sort_by` in `App::sort_processes`:
every descending branch is the ascending comparator with its arguments
flipped (`b` compared to `a`). -/
def cmpDir (key : SortBy) (asc : Bool) (a b : ProcessInfo) : Ordering :=
  match asc with
  | true => cmpKey key a b
  | false => cmpKey key b a

/-- Insert `x` into `l` in front of the first element `y` with
`c x y ≠ gt`.  Helper for `sortByOrd`. -/
def insertOrd {α : Type} (c : α → α → Ordering) (x : α) : List α → List α
  | [] => [x]
  | y :: ys => if c x y = Ordering.gt then y :: insertOrd c x ys else x :: y :: ys

/-- Model of Rust's stable `slice::sort_by` with comparator `c`, as a
stable insertion sort.  For a comparator that is a total preorder this
is extensionally the unique stable sort, which is what `sort_by`
guarantees.  For a comparator that is *not* a total order — the Cpu
comparator whenever a NaN row coexists with rows of distinct numeric
values, since `unwrap_or(Equal)` then breaks transitivity — Rust leaves
the resulting element order unspecified, and this definition is only
one admissible refinement of `sort_by`; every theorem below that needs
the guaranteed (stable) behavior therefore carries a hypothesis
restricting it to the total-preorder regime, and `mergeSortOrd` below
is a second admissible refinement used to witness that outside this
regime tie order is not preserved. -/
def sortByOrd {α : Type} (c : α → α → Ordering) : List α → List α
  | [] => []
  | x :: xs => insertOrd c x (sortByOrd c xs)

/-- A stable merge of two runs, taking from the left run while its head
is not strictly greater than the right head (the left-favoring merge of
a stable merge sort).  The fuel argument bounds the recursion depth to
keep the definition structural; callers pass at least the combined
length, so the fuel-exhausted branch is never reached. -/
def mergeFuel {α : Type} (c : α → α → Ordering) : Nat → List α → List α → List α
  | 0, l, r => l ++ r
  | _ + 1, [], r => r
  | _ + 1, x :: xs, [] => x :: xs
  | fuel + 1, x :: xs, y :: ys =>
    if c x y = Ordering.gt then y :: mergeFuel c fuel (x :: xs) ys
    else x :: mergeFuel c fuel xs (y :: ys)

/-- Top-down stable merge sort with a ceiling split, fuelled by the
recursion depth (any fuel at least the list length suffices). -/
def mergeSortFuel {α : Type} (c : α → α → Ordering) : Nat → List α → List α
  | 0, l => l
  | _ + 1, [] => []
  | _ + 1, [x] => [x]
  | fuel + 1, l =>
    mergeFuel c l.length
      (mergeSortFuel c fuel (l.take ((l.length + 1) / 2)))
      (mergeSortFuel c fuel (l.drop ((l.length + 1) / 2)))

/-- A second admissible refinement of `slice::sort_by`: a stable
top-down merge sort (Rust's `sort_by` is merge-based above the small
insertion-sort threshold).  For total-preorder comparators a stable
merge sort and a stable insertion sort agree; for the inconsistent
NaN-Equal Cpu comparator they may order tied pairs differently, which
is exactly the unspecified-order regime of the Rust documentation. -/
def mergeSortOrd {α : Type} (c : α → α → Ordering) (l : List α) : List α :=
  mergeSortFuel c l.length l

/-- `App::sort_processes`: re-sort `processes` in place by the active
key and direction. -/
def sort_processes (app : App) : App :=
  { app with processes := sortByOrd (cmpDir app.sort_by app.sort_ascending) app.processes }

/-- The trailing bounds repair of `App::update_processes`: if the
selection is out of range, clamp it to `len.saturating_sub(1)` (`Nat`
subtraction saturates exactly like `saturating_sub`). -/
def clampSelected (a : App) : App :=
  if a.selected_process ≥ a.processes.length then
    { a with selected_process := a.processes.length - 1 }
  else a

/-- `App::update_processes`: rebuild `processes` from the snapshot,
sort, then repair the selection index. -/
def update_processes (app : App) (s : Snapshot) : App :=
  clampSelected (sort_processes { app with processes := s.processes })

/-- The `(push, trim to 60)` step shared by the three history series in
`App::update_system_metrics` / `App::update_network_stats`: push to the
tail, and if the length now exceeds `cap`, `remove(0)`. -/
def pushBounded {α : Type} (cap : Nat) (l : List α) (x : α) : List α :=
  let l2 := l ++ [x]
  if l2.length > cap then l2.drop 1 else l2

/-- The memory percentage computed in `App::update_system_metrics`
(`used as f32 / total as f32 * 100.0`), in exact rational arithmetic;
float rounding is not modelled (no statement depends on the value). -/
def memPercent (s : Snapshot) : ℚ :=
  (s.usedMemory : ℚ) / (s.totalMemory : ℚ) * 100

/-- `App::update_system_metrics`: append the global cpu % and the memory
% to their capacity-60 histories. -/
def update_system_metrics (app : App) (s : Snapshot) : App :=
  { app with
      cpu_history := pushBounded 60 app.cpu_history s.globalCpu
      memory_history := pushBounded 60 app.memory_history (memPercent s) }

/-- The aggregation loop of `App::update_network_stats`: sum the
received/transmitted counters over every interface (an empty interface
list yields `(0, 0)`). -/
def netTotals (s : Snapshot) : Nat × Nat :=
  s.networks.foldl (fun acc n => (acc.1 + n.received, acc.2 + n.transmitted)) (0, 0)

/-- `App::update_network_stats`: append the aggregated sample to the
capacity-60 network history. -/
def update_network_stats (app : App) (s : Snapshot) : App :=
  { app with network_history := pushBounded 60 app.network_history (netTotals s) }

/-- `App::update_disk_usage`: clear and rebuild `disk_usage` with one
`(name, total - available, total)` entry per provider disk, in provider
order.  `total - available` is `u64` subtraction, here `Nat`
subtraction (the provider guarantees `available ≤ total`). -/
def update_disk_usage (app : App) (s : Snapshot) : App :=
  { app with disk_usage := s.disks.map (fun d => (d.name, d.total - d.available, d.total)) }

/-- `App::update`: one scheduled tick — refresh the provider handles
(modelled by the snapshot argument), then update processes, system
metrics, network stats and disk usage, in that order. -/
def update (app : App) (s : Snapshot) : App :=
  update_disk_usage (update_network_stats (update_system_metrics (update_processes app s) s) s) s

/-- `App::refresh`: the manual refresh — refresh the provider handles,
then `update_processes` only. -/
def refresh (app : App) (s : Snapshot) : App :=
  update_processes app s

/-- `App::next_tab`. -/
def next_tab (app : App) : App :=
  { app with current_tab := (app.current_tab + 1) % 4 }

/-- `App::previous_tab`. -/
def previous_tab (app : App) : App :=
  if app.current_tab > 0 then { app with current_tab := app.current_tab - 1 }
  else { app with current_tab := 3 }

/-- `App::next_process`. -/
def next_process (app : App) : App :=
  if app.processes.isEmpty then app
  else { app with selected_process := (app.selected_process + 1) % app.processes.length }

/-- `App::previous_process`. -/
def previous_process (app : App) : App :=
  if app.processes.isEmpty then app
  else if app.selected_process > 0 then
    { app with selected_process := app.selected_process - 1 }
  else { app with selected_process := app.processes.length - 1 }

/-- `App::toggle_sort`: advance the sort key one step in the fixed cycle
Pid → Name → Cpu → Memory → Pid, leaving the direction untouched, then
re-sort. -/
def toggle_sort (app : App) : App :=
  sort_processes
    { app with
        sort_by :=
          match app.sort_by with
          | SortBy.Pid => SortBy.Name
          | SortBy.Name => SortBy.Cpu
          | SortBy.Cpu => SortBy.Memory
          | SortBy.Memory => SortBy.Pid }

/-- `App::kill_selected_process`.  `sys pid` models
`self.system.process(Pid::from(pid))` followed by `process.kill()`:
`none` when the provider does not know the pid, `some b` when it does
and its `kill()` call would report `b`.  The result pairs the (entirely
unchanged) core state with the list of pids a termination request was
issued for; the Rust method returns `()` and drops the `bool` that
`kill()` reports (the `some _` pattern below).  The guarded index
`self.processes[self.selected_process]` is rendered as `getD` — the
bounds check in the same `if` makes the fallback unreachable. -/
def kill_selected_process (app : App) (sys : Nat → Option Bool) : App × List Nat :=
  if ¬app.processes.isEmpty ∧ app.selected_process < app.processes.length then
    match sys (app.processes.getD app.selected_process default).pid with
    | some _ => (app, [(app.processes.getD app.selected_process default).pid])
    | none => (app, [])
  else (app, [])

/-- The core-state part of `App::new`: empty process table, selection 0,
tab 0, sort key `Cpu`, descending, empty histories and disk list. -/
def App.new : App :=
  { processes := []
    selected_process := 0
    current_tab := 0
    sort_by := SortBy.Cpu
    sort_ascending := false
    cpu_history := []
    memory_history := []
    network_history := []
    disk_usage := [] }

/-- The selection-bounds invariant of the spec: when the table is empty
the selection is 0, otherwise it is a valid index. -/
def SelInv (app : App) : Prop :=
  (app.processes = [] → app.selected_process = 0) ∧
  (app.processes ≠ [] → app.selected_process < app.processes.length)

instance (app : App) : Decidable (SelInv app) := by
  unfold SelInv; infer_instance

/-- States of the core reachable from `App::new` by the operations the
event loop can trigger (each refreshing step consumes an arbitrary
provider snapshot). -/
inductive Reachable : App → Prop where
  | init : Reachable App.new
  | update (s : Snapshot) {a : App} : Reachable a → Reachable (update a s)
  | refresh (s : Snapshot) {a : App} : Reachable a → Reachable (refresh a s)
  | next_tab {a : App} : Reachable a → Reachable (next_tab a)
  | previous_tab {a : App} : Reachable a → Reachable (previous_tab a)
  | next_process {a : App} : Reachable a → Reachable (next_process a)
  | previous_process {a : App} : Reachable a → Reachable (previous_process a)
  | toggle_sort {a : App} : Reachable a → Reachable (toggle_sort a)
  | kill (sys : Nat → Option Bool) {a : App} :
      Reachable a → Reachable (kill_selected_process a sys).1

/-- A concrete process record used in the example states below. -/
def mkProc (pid : Nat) (c : Option ℚ) : ProcessInfo :=
  { pid := pid, name := "", cpu_usage := c, memory := 0, status := "", start_time := 0 }

/-- A concrete core state with the given process table, sort key and
direction (all other fields as in `App.new`). -/
def mkApp (ps : List ProcessInfo) (key : SortBy) (asc : Bool) : App :=
  { App.new with processes := ps, sort_by := key, sort_ascending := asc }

/-- A concrete provider snapshot used in the examples below. -/
def snapEx : Snapshot :=
  { processes := [], globalCpu := 5, usedMemory := 1, totalMemory := 2,
    networks := [{ name := "", received := 3, transmitted := 4 }], disks := [] }

/-- A concrete snapshot whose single disk reports 100 total and 30
available bytes. -/
def snapDisk : Snapshot :=
  { snapEx with disks := [{ name := "", total := 100, available := 30 }] }

/-! ## Generic facts about the stable sort model -/

theorem insertOrd_perm {α : Type} (c : α → α → Ordering) (x : α) (l : List α) :
    (insertOrd c x l).Perm (x :: l) := by
  induction l with
  | nil => exact List.Perm.refl _
  | cons y ys ih =>
    unfold insertOrd
    by_cases h : c x y = Ordering.gt
    · rw [if_pos h]
      exact (ih.cons y).trans (List.Perm.swap x y ys)
    · rw [if_neg h]

theorem sortByOrd_perm {α : Type} (c : α → α → Ordering) (l : List α) :
    (sortByOrd c l).Perm l := by
  induction l with
  | nil => exact List.Perm.refl _
  | cons x xs ih => exact (insertOrd_perm c x (sortByOrd c xs)).trans (ih.cons x)

theorem sortByOrd_length {α : Type} (c : α → α → Ordering) (l : List α) :
    (sortByOrd c l).length = l.length :=
  (sortByOrd_perm c l).length_eq

theorem insertOrd_pairwise {α : Type} {c : α → α → Ordering}
    (hswap : ∀ a b, c b a = (c a b).swap)
    (htrans : ∀ a b d, c a b = Ordering.lt → c b d = Ordering.lt → c a d = Ordering.lt)
    (x : α) {l : List α} (hl : l.Pairwise fun a b => c a b = Ordering.lt)
    (hx : ∀ y ∈ l, c x y ≠ Ordering.eq) :
    (insertOrd c x l).Pairwise fun a b => c a b = Ordering.lt := by
  induction l with
  | nil => simp [insertOrd]
  | cons y ys ih =>
    rcases List.pairwise_cons.mp hl with ⟨hy, hys⟩
    unfold insertOrd
    cases hcase : c x y with
    | lt =>
      rw [if_neg (by decide)]
      refine List.pairwise_cons.mpr ⟨?_, hl⟩
      intro z hz
      rcases List.mem_cons.mp hz with rfl | hz2
      · exact hcase
      · exact htrans x y z hcase (hy z hz2)
    | eq => exact absurd hcase (hx y (List.mem_cons_self y ys))
    | gt =>
      rw [if_pos rfl]
      refine List.pairwise_cons.mpr
        ⟨?_, ih hys (fun z hz => hx z (List.mem_cons_of_mem y hz))⟩
      intro z hz
      have hz2 : z ∈ x :: ys := (insertOrd_perm c x ys).subset hz
      rcases List.mem_cons.mp hz2 with rfl | hz3
      · rw [hswap z y, hcase]
        rfl
      · exact hy z hz3

theorem sortByOrd_pairwise {α : Type} {c : α → α → Ordering}
    (hswap : ∀ a b, c b a = (c a b).swap)
    (htrans : ∀ a b d, c a b = Ordering.lt → c b d = Ordering.lt → c a d = Ordering.lt)
    {l : List α} (hnt : l.Pairwise fun a b => c a b ≠ Ordering.eq) :
    (sortByOrd c l).Pairwise fun a b => c a b = Ordering.lt := by
  induction l with
  | nil => simp [sortByOrd]
  | cons x xs ih =>
    rcases List.pairwise_cons.mp hnt with ⟨hx, hxs⟩
    exact insertOrd_pairwise hswap htrans x (ih hxs)
      (fun y hy => hx y ((sortByOrd_perm c xs).subset hy))

theorem sortedLt_unique {α : Type} {c : α → α → Ordering}
    (hswap : ∀ a b, c b a = (c a b).swap)
    {l₁ l₂ : List α} (hp : l₁.Perm l₂)
    (h1 : l₁.Pairwise fun a b => c a b = Ordering.lt)
    (h2 : l₂.Pairwise fun a b => c a b = Ordering.lt) : l₁ = l₂ := by
  haveI : IsAntisymm α (fun a b => c a b = Ordering.lt) := by
    constructor
    intro a b hab hba
    rw [hswap a b, hab] at hba
    exact absurd hba (by decide)
  exact List.eq_of_perm_of_sorted hp h1 h2

/-! ## Facts about the comparators of `App::sort_processes` -/

theorem cmpOfLt_swap {α : Type} [LinearOrder α] (a b : α) :
    cmpOfLt b a = (cmpOfLt a b).swap := by
  unfold cmpOfLt
  rcases lt_trichotomy a b with h | h | h
  · simp [h, lt_asymm h, h.ne, h.ne', Ordering.swap]
  · simp [h, lt_irrefl, Ordering.swap]
  · simp [h, lt_asymm h, h.ne, h.ne', Ordering.swap]

theorem cmpOfLt_eq_lt_iff {α : Type} [LinearOrder α] {a b : α} :
    cmpOfLt a b = Ordering.lt ↔ a < b := by
  unfold cmpOfLt
  split_ifs with h1 h2
  · simp [h1]
  · simp [h1]
  · simp [h1]

theorem cmpOfLt_eq_eq_iff {α : Type} [LinearOrder α] {a b : α} :
    cmpOfLt a b = Ordering.eq ↔ a = b := by
  unfold cmpOfLt
  split_ifs with h1 h2
  · simp [h1.ne]
  · simp [h2]
  · simp [h2]

theorem cmpOfLt_lt_trans {α : Type} [LinearOrder α] {a b d : α}
    (h1 : cmpOfLt a b = Ordering.lt) (h2 : cmpOfLt b d = Ordering.lt) :
    cmpOfLt a d = Ordering.lt :=
  cmpOfLt_eq_lt_iff.mpr ((cmpOfLt_eq_lt_iff.mp h1).trans (cmpOfLt_eq_lt_iff.mp h2))

theorem cmpCpuVal_swap (a b : Option ℚ) : cmpCpuVal b a = (cmpCpuVal a b).swap := by
  cases a with
  | none => cases b <;> rfl
  | some x =>
    cases b with
    | none => rfl
    | some y => exact cmpOfLt_swap x y

theorem cmpCpuVal_lt_trans {a b d : Option ℚ}
    (h1 : cmpCpuVal a b = Ordering.lt) (h2 : cmpCpuVal b d = Ordering.lt) :
    cmpCpuVal a d = Ordering.lt := by
  cases a with
  | none => simp [cmpCpuVal] at h1
  | some x =>
    cases b with
    | none => simp [cmpCpuVal] at h1
    | some y =>
      cases d with
      | none => simp [cmpCpuVal] at h2
      | some z => exact cmpOfLt_lt_trans h1 h2

theorem cmpKey_swap (key : SortBy) (a b : ProcessInfo) :
    cmpKey key b a = (cmpKey key a b).swap := by
  cases key with
  | Pid => exact cmpOfLt_swap a.pid b.pid
  | Name => exact cmpOfLt_swap a.name b.name
  | Cpu => exact cmpCpuVal_swap a.cpu_usage b.cpu_usage
  | Memory => exact cmpOfLt_swap a.memory b.memory

theorem cmpKey_lt_trans (key : SortBy) {a b d : ProcessInfo}
    (h1 : cmpKey key a b = Ordering.lt) (h2 : cmpKey key b d = Ordering.lt) :
    cmpKey key a d = Ordering.lt := by
  cases key with
  | Pid => exact cmpOfLt_lt_trans h1 h2
  | Name => exact cmpOfLt_lt_trans h1 h2
  | Cpu => exact cmpCpuVal_lt_trans h1 h2
  | Memory => exact cmpOfLt_lt_trans h1 h2

theorem cmpDir_swap (key : SortBy) (asc : Bool) (a b : ProcessInfo) :
    cmpDir key asc b a = (cmpDir key asc a b).swap := by
  cases asc with
  | true => exact cmpKey_swap key a b
  | false => exact cmpKey_swap key b a

theorem cmpDir_lt_trans (key : SortBy) (asc : Bool) {a b d : ProcessInfo}
    (h1 : cmpDir key asc a b = Ordering.lt) (h2 : cmpDir key asc b d = Ordering.lt) :
    cmpDir key asc a d = Ordering.lt := by
  cases asc with
  | true => exact cmpKey_lt_trans key h1 h2
  | false => exact cmpKey_lt_trans key h2 h1

theorem Ordering.swap_eq_eq_iff {o : Ordering} :
    o.swap = Ordering.eq ↔ o = Ordering.eq := by
  cases o <;> simp [Ordering.swap]

theorem cmpDir_eq_eq_iff (key : SortBy) (asc : Bool) {a b : ProcessInfo} :
    cmpDir key asc a b = Ordering.eq ↔ cmpKey key a b = Ordering.eq := by
  cases asc with
  | true => exact Iff.rfl
  | false =>
    show cmpKey key b a = Ordering.eq ↔ _
    rw [cmpKey_swap key b a]
    exact Ordering.swap_eq_eq_iff.symm

/-! ## Facts about the bounded history series -/

theorem pushBounded_drop {α : Type} (cap : Nat) (pre : List α) (x : α) :
    pushBounded cap (pre.drop (pre.length - cap)) x
      = (pre ++ [x]).drop ((pre ++ [x]).length - cap) := by
  unfold pushBounded
  by_cases hc : pre.length < cap
  · have h0 : pre.length - cap = 0 := by omega
    have h1 : (pre ++ [x]).length - cap = 0 := by
      simp only [List.length_append, List.length_singleton]; omega
    rw [h0, h1, List.drop_zero, List.drop_zero,
      if_neg (by simp only [List.length_append, List.length_singleton]; omega)]
  · by_cases hz : cap = 0
    · subst hz
      simp only [Nat.sub_zero, List.drop_length]
      rfl
    · have hlen : (pre.drop (pre.length - cap)).length = cap := by
        rw [List.length_drop]; omega
      rw [if_pos (by simp only [List.length_append, hlen, List.length_singleton]; omega)]
      rw [List.drop_append_eq_append_drop, List.drop_append_eq_append_drop, hlen]
      rw [List.drop_drop]
      have e1 : pre.length - cap + 1 = (pre ++ [x]).length - cap := by
        simp only [List.length_append, List.length_singleton]; omega
      have e2 : 1 - cap = 0 := by omega
      have e3 : (pre ++ [x]).length - cap - pre.length = 0 := by
        simp only [List.length_append, List.length_singleton]; omega
      rw [e1, e2, e3]

theorem foldl_pushBounded {α : Type} (cap : Nat) (ws : List α) (pre : List α) :
    ws.foldl (pushBounded cap) (pre.drop (pre.length - cap))
      = (pre ++ ws).drop ((pre ++ ws).length - cap) := by
  induction ws generalizing pre with
  | nil => simp
  | cons w ws ih =>
    rw [List.foldl_cons, pushBounded_drop]
    have := ih (pre ++ [w])
    simpa [List.append_assoc] using this

theorem foldl_pushBounded_nil {α : Type} (cap : Nat) (ws : List α) :
    ws.foldl (pushBounded cap) [] = ws.drop (ws.length - cap) := by
  have := foldl_pushBounded cap ws []
  simpa using this

/-! ## Field bookkeeping for the state operations -/

theorem clampSelected_processes (a : App) : (clampSelected a).processes = a.processes := by
  unfold clampSelected; split <;> rfl

theorem clampSelected_cpu_history (a : App) :
    (clampSelected a).cpu_history = a.cpu_history := by
  unfold clampSelected; split <;> rfl

theorem clampSelected_memory_history (a : App) :
    (clampSelected a).memory_history = a.memory_history := by
  unfold clampSelected; split <;> rfl

theorem clampSelected_network_history (a : App) :
    (clampSelected a).network_history = a.network_history := by
  unfold clampSelected; split <;> rfl

theorem clampSelected_disk_usage (a : App) :
    (clampSelected a).disk_usage = a.disk_usage := by
  unfold clampSelected; split <;> rfl

theorem clampSelected_current_tab (a : App) :
    (clampSelected a).current_tab = a.current_tab := by
  unfold clampSelected; split <;> rfl

theorem clampSelected_sort_by (a : App) : (clampSelected a).sort_by = a.sort_by := by
  unfold clampSelected; split <;> rfl

theorem clampSelected_sort_ascending (a : App) :
    (clampSelected a).sort_ascending = a.sort_ascending := by
  unfold clampSelected; split <;> rfl

theorem selInv_clampSelected (a : App) : SelInv (clampSelected a) := by
  unfold clampSelected SelInv
  split
  · next h =>
    constructor
    · intro he
      rw [he]
      rfl
    · intro hne
      exact Nat.sub_lt (List.length_pos.mpr hne) one_pos
  · next h =>
    constructor
    · intro he
      rw [he] at h
      simp at h
    · intro hne
      omega

theorem update_processes_processes (app : App) (s : Snapshot) :
    (update_processes app s).processes
      = sortByOrd (cmpDir app.sort_by app.sort_ascending) s.processes := by
  unfold update_processes
  rw [clampSelected_processes]
  rfl

theorem selInv_update_processes (app : App) (s : Snapshot) :
    SelInv (update_processes app s) :=
  selInv_clampSelected _

theorem update_processes_cpu_history (app : App) (s : Snapshot) :
    (update_processes app s).cpu_history = app.cpu_history := by
  unfold update_processes
  rw [clampSelected_cpu_history]
  rfl

theorem update_processes_memory_history (app : App) (s : Snapshot) :
    (update_processes app s).memory_history = app.memory_history := by
  unfold update_processes
  rw [clampSelected_memory_history]
  rfl

theorem update_processes_network_history (app : App) (s : Snapshot) :
    (update_processes app s).network_history = app.network_history := by
  unfold update_processes
  rw [clampSelected_network_history]
  rfl

theorem update_processes_disk_usage (app : App) (s : Snapshot) :
    (update_processes app s).disk_usage = app.disk_usage := by
  unfold update_processes
  rw [clampSelected_disk_usage]
  rfl

theorem update_processes_current_tab (app : App) (s : Snapshot) :
    (update_processes app s).current_tab = app.current_tab := by
  unfold update_processes
  rw [clampSelected_current_tab]
  rfl

theorem update_cpu_history (app : App) (s : Snapshot) :
    (update app s).cpu_history = pushBounded 60 app.cpu_history s.globalCpu := by
  show pushBounded 60 (update_processes app s).cpu_history s.globalCpu = _
  rw [update_processes_cpu_history]

theorem update_memory_history (app : App) (s : Snapshot) :
    (update app s).memory_history = pushBounded 60 app.memory_history (memPercent s) := by
  show pushBounded 60 (update_processes app s).memory_history (memPercent s) = _
  rw [update_processes_memory_history]

theorem update_network_history (app : App) (s : Snapshot) :
    (update app s).network_history = pushBounded 60 app.network_history (netTotals s) := by
  show pushBounded 60 (update_processes app s).network_history (netTotals s) = _
  rw [update_processes_network_history]

theorem update_disk_usage_eq (app : App) (s : Snapshot) :
    (update app s).disk_usage
      = s.disks.map (fun d => (d.name, d.total - d.available, d.total)) := rfl

theorem update_processes_eq_refresh (app : App) (s : Snapshot) :
    (update app s).processes = (refresh app s).processes := rfl

theorem update_selected_eq_refresh (app : App) (s : Snapshot) :
    (update app s).selected_process = (refresh app s).selected_process := rfl

theorem kill_fst (app : App) (sys : Nat → Option Bool) :
    (kill_selected_process app sys).1 = app := by
  unfold kill_selected_process
  split
  · cases sys (app.processes.getD app.selected_process default).pid <;> rfl
  · rfl

/-! ## Preservation of the selection invariant -/

theorem selInv_sort_processes {a : App} (ih : SelInv a) : SelInv (sort_processes a) := by
  have hlen := sortByOrd_length (cmpDir a.sort_by a.sort_ascending) a.processes
  constructor
  · intro he
    apply ih.1
    have h0 : (sortByOrd (cmpDir a.sort_by a.sort_ascending) a.processes).length = 0 := by
      rw [show sortByOrd (cmpDir a.sort_by a.sort_ascending) a.processes = [] from he]
      rfl
    rw [hlen] at h0
    exact List.eq_nil_of_length_eq_zero h0
  · intro hne
    have hne2 : a.processes ≠ [] := by
      intro he2
      apply hne
      show sortByOrd (cmpDir a.sort_by a.sort_ascending) a.processes = []
      rw [he2]
      rfl
    show a.selected_process < (sortByOrd (cmpDir a.sort_by a.sort_ascending) a.processes).length
    rw [hlen]
    exact ih.2 hne2

theorem selInv_next_process {a : App} (ih : SelInv a) : SelInv (next_process a) := by
  unfold next_process
  split
  · exact ih
  · next h =>
    have hne : a.processes ≠ [] := fun he => h (by simp [he])
    exact ⟨fun he => absurd he hne, fun _ => Nat.mod_lt _ (List.length_pos.mpr hne)⟩

theorem selInv_previous_process {a : App} (ih : SelInv a) : SelInv (previous_process a) := by
  unfold previous_process
  split
  · exact ih
  · next h =>
    have hne : a.processes ≠ [] := fun he => h (by simp [he])
    have hlt := ih.2 hne
    split
    · refine ⟨fun he => absurd he hne, fun _ => ?_⟩
      show a.selected_process - 1 < a.processes.length
      omega
    · exact ⟨fun he => absurd he hne,
        fun _ => Nat.sub_lt (List.length_pos.mpr hne) one_pos⟩

theorem selInv_toggle_sort {a : App} (ih : SelInv a) : SelInv (toggle_sort a) :=
  selInv_sort_processes ih

/-! ## Claim theorems -/

/-- C4: in every reachable core state the selection-index invariant
holds — `selected_process < processes.length` whenever the table is
non-empty, and `selected_process = 0` whenever it is empty; every
operation (tick, manual refresh, tab and selection navigation, sort
toggling, kill) preserves it from the initial state onwards. -/
theorem selection_invariant_reachable (app : App) (h : Reachable app) : SelInv app := by
  induction h with
  | init => exact ⟨fun _ => rfl, fun hne => absurd rfl hne⟩
  | update s _ ih => exact selInv_update_processes _ s
  | refresh s _ ih => exact selInv_update_processes _ s
  | next_tab _ ih => exact ih
  | previous_tab _ ih =>
    unfold previous_tab
    split
    · exact ih
    · exact ih
  | next_process _ ih => exact selInv_next_process ih
  | previous_process _ ih => exact selInv_previous_process ih
  | toggle_sort _ ih => exact selInv_toggle_sort ih
  | kill sys _ ih =>
    rw [kill_fst]
    exact ih

/-- C4 witness: the invariant, instantiated at the initial state, which
is reachable by construction. -/
theorem selection_invariant_reachable_witness : SelInv App.new :=
  selection_invariant_reachable App.new Reachable.init

/-- C3: for every sequence of appended samples, a capacity-60 series (the
step used by the cpu, memory and network histories) holds at most 60
samples and equals the last 60 appended values in append order; with
capacity 3, appending 10, 20, 30, 40 leaves [20, 30, 40]; and one tick
performs exactly this append step on each of the three history fields. -/
theorem history_bounded_last60 :
    (∀ ws : List ℚ, (ws.foldl (pushBounded 60) []).length ≤ 60
        ∧ ws.foldl (pushBounded 60) [] = ws.drop (ws.length - 60))
    ∧ ([10, 20, 30, 40] : List ℚ).foldl (pushBounded 3) [] = [20, 30, 40]
    ∧ (∀ (app : App) (s : Snapshot),
        (update app s).cpu_history = pushBounded 60 app.cpu_history s.globalCpu
        ∧ (update app s).memory_history = pushBounded 60 app.memory_history (memPercent s)
        ∧ (update app s).network_history = pushBounded 60 app.network_history (netTotals s)) := by
  refine ⟨fun ws => ⟨?_, foldl_pushBounded_nil 60 ws⟩, by decide, fun app s =>
    ⟨update_cpu_history app s, update_memory_history app s, update_network_history app s⟩⟩
  rw [foldl_pushBounded_nil, List.length_drop]
  omega

/-- C8: `toggle_sort` cycles the sort key Pid → Name → Cpu → Memory →
Pid (the spec's Identifier → Name → Cpu → Memory → Identifier), so four
applications restore the original key, and no application changes the
sort direction. -/
theorem toggle_sort_cycle (app : App) :
    (toggle_sort (toggle_sort (toggle_sort (toggle_sort app)))).sort_by = app.sort_by
    ∧ (toggle_sort app).sort_ascending = app.sort_ascending
    ∧ (toggle_sort app).sort_by
        = (match app.sort_by with
           | SortBy.Pid => SortBy.Name
           | SortBy.Name => SortBy.Cpu
           | SortBy.Cpu => SortBy.Memory
           | SortBy.Memory => SortBy.Pid) := by
  obtain ⟨ps, sel, tab, key, asc, ch, mh, nh, du⟩ := app
  cases key <;> exact ⟨rfl, rfl, rfl⟩

/-- C9: normalizing the provider's disk collection produces one entry
per reported disk, in provider order, with used bytes
`total - available`; under the provider-side precondition
`available ≤ total` the subtraction is exact
(`used + available = total`). -/
theorem disk_normalization (app : App) (s : Snapshot)
    (hp : ∀ d ∈ s.disks, d.available ≤ d.total) :
    (update_disk_usage app s).disk_usage
      = s.disks.map (fun d => (d.name, d.total - d.available, d.total))
    ∧ (update_disk_usage app s).disk_usage.length = s.disks.length
    ∧ ∀ d ∈ s.disks, d.total - d.available + d.available = d.total := by
  refine ⟨rfl, by simp [update_disk_usage], fun d hd => Nat.sub_add_cancel (hp d hd)⟩

/-- C9 witness: a disk with total 100 and available 30 normalizes to
used 70, total 100. -/
theorem disk_normalization_witness :
    (∀ d ∈ snapDisk.disks, d.available ≤ d.total)
    ∧ (update_disk_usage App.new snapDisk).disk_usage = [("", 70, 100)] := by
  refine ⟨by decide, ?_⟩
  rw [(disk_normalization App.new snapDisk (by decide)).1]
  rfl

/-- C10: the freshly constructed core state sorts by Cpu descending,
shows tab 0, selects index 0, and has empty process table, disk list
and history series. -/
theorem initial_state_spec :
    App.new.sort_by = SortBy.Cpu ∧ App.new.sort_ascending = false
    ∧ App.new.current_tab = 0 ∧ App.new.selected_process = 0
    ∧ App.new.processes = [] ∧ App.new.disk_usage = []
    ∧ App.new.cpu_history = [] ∧ App.new.memory_history = []
    ∧ App.new.network_history = [] :=
  ⟨rfl, rfl, rfl, rfl, rfl, rfl, rfl, rfl, rfl⟩

/-- C1 counterexample: from the initial state and a concrete snapshot,
`App::refresh` (manual refresh) and `App::update` (scheduled tick)
produce different states — the tick appends one cpu/memory/network
sample, the manual refresh appends none — so the two are not the
identical update sequence. -/
theorem refresh_ne_update : refresh App.new snapEx ≠ update App.new snapEx := by
  decide

/-- C1 (amended): manual refresh agrees with a tick on the process
table and the selection, but performs only that part of the cycle: it
leaves the three history series and the disk-usage list untouched,
whereas a tick additionally appends exactly one sample to each history
series and replaces the disk-usage list. -/
theorem manual_refresh_processes_only (app : App) (s : Snapshot) :
    (refresh app s).processes = (update app s).processes
    ∧ (refresh app s).selected_process = (update app s).selected_process
    ∧ (refresh app s).cpu_history = app.cpu_history
    ∧ (refresh app s).memory_history = app.memory_history
    ∧ (refresh app s).network_history = app.network_history
    ∧ (refresh app s).disk_usage = app.disk_usage
    ∧ (update app s).cpu_history = pushBounded 60 app.cpu_history s.globalCpu
    ∧ (update app s).memory_history = pushBounded 60 app.memory_history (memPercent s)
    ∧ (update app s).network_history = pushBounded 60 app.network_history (netTotals s)
    ∧ (update app s).disk_usage
        = s.disks.map (fun d => (d.name, d.total - d.available, d.total)) :=
  ⟨rfl, rfl, update_processes_cpu_history app s, update_processes_memory_history app s,
    update_processes_network_history app s, update_processes_disk_usage app s,
    update_cpu_history app s, update_memory_history app s, update_network_history app s, rfl⟩

/-- C2 counterexample: the two provider maps below report different
success/failure outcomes for pid 7, yet the entire observable result of
`kill_selected_process` — unchanged state, one issued request, and the
`()` return of the Rust method — is identical for both, so the call
does not return (or otherwise report) the provider outcome: the code
discards the `bool` of `process.kill()`. -/
theorem kill_ignores_provider_outcome :
    (fun p => if p = 7 then some true else none : Nat → Option Bool) 7 = some true
    ∧ (fun p => if p = 7 then some false else none : Nat → Option Bool) 7 = some false
    ∧ kill_selected_process (mkApp [mkProc 7 (some 1)] SortBy.Cpu false)
        (fun p => if p = 7 then some true else none)
      = kill_selected_process (mkApp [mkProc 7 (some 1)] SortBy.Cpu false)
        (fun p => if p = 7 then some false else none)
    ∧ (kill_selected_process (mkApp [mkProc 7 (some 1)] SortBy.Cpu false)
        (fun p => if p = 7 then some true else none)).2 = [7] := by
  refine ⟨rfl, rfl, by decide, by decide⟩

/-- C2 (amended): `kill_selected_process` never mutates the core state
— in particular it does not remove the selected row — and issues
exactly one termination request, for the pid at `selected_process`,
precisely when the table is non-empty, the selection is in range, and
the provider knows that pid; on an empty table it is a no-op issuing no
request; the provider-reported outcome is discarded and nothing is
returned. -/
theorem kill_selected_characterization (app : App) (sys : Nat → Option Bool) :
    (kill_selected_process app sys).1 = app
    ∧ (app.processes = [] → (kill_selected_process app sys).2 = [])
    ∧ (app.selected_process < app.processes.length → app.processes ≠ [] →
        (kill_selected_process app sys).2
          = if (sys (app.processes.getD app.selected_process default).pid).isSome
            then [(app.processes.getD app.selected_process default).pid]
            else []) := by
  refine ⟨kill_fst app sys, ?_, ?_⟩
  · intro he
    unfold kill_selected_process
    rw [if_neg (by simp [he])]
  · intro hlt hne
    have hE : ¬app.processes.isEmpty = true := by
      cases hp : app.processes with
      | nil => exact absurd hp hne
      | cons x xs => simp [hp]
    unfold kill_selected_process
    rw [if_pos ⟨hE, hlt⟩]
    cases hsys : sys (app.processes.getD app.selected_process default).pid with
    | some b => simp [hsys]
    | none => simp [hsys]

/-- C2 witness: at a concrete one-row state whose pid the provider
knows, the characterization yields the unchanged state and the single
issued request for pid 7. -/
theorem kill_selected_characterization_witness :
    (kill_selected_process (mkApp [mkProc 7 (some 1)] SortBy.Cpu false)
        (fun p => if p = 7 then some true else none)).1
      = mkApp [mkProc 7 (some 1)] SortBy.Cpu false
    ∧ (kill_selected_process (mkApp [mkProc 7 (some 1)] SortBy.Cpu false)
        (fun p => if p = 7 then some true else none)).2 = [7] := by
  have h := kill_selected_characterization (mkApp [mkProc 7 (some 1)] SortBy.Cpu false)
    (fun p => if p = 7 then some true else none)
  refine ⟨h.1, ?_⟩
  rw [h.2.2 (by decide) (by decide)]
  decide

/-! ## Stability of the sort, and the NaN-tolerant comparator -/

theorem cmpCpuVal_eq_of_none {u v : Option ℚ} (h : u = none ∨ v = none) :
    cmpCpuVal u v = Ordering.eq := by
  cases u with
  | none => cases v <;> rfl
  | some x =>
    cases v with
    | none => rfl
    | some y => rcases h with h | h <;> simp at h

theorem sublist_insertOrd {α : Type} (c : α → α → Ordering) (x : α) (l : List α) :
    l.Sublist (insertOrd c x l) := by
  induction l with
  | nil => exact List.nil_sublist _
  | cons y ys ih =>
    unfold insertOrd
    by_cases hcy : c x y = Ordering.gt
    · rw [if_pos hcy]
      exact ih.cons₂ y
    · rw [if_neg hcy]
      exact (List.Sublist.refl _).cons x

theorem insertOrd_self_pair {α : Type} {c : α → α → Ordering} (u v : α)
    (huv : c u v ≠ Ordering.gt) {l : List α} (hv : v ∈ l) :
    [u, v].Sublist (insertOrd c u l) := by
  induction l with
  | nil => cases hv
  | cons y ys ih =>
    unfold insertOrd
    by_cases hcy : c u y = Ordering.gt
    · rw [if_pos hcy]
      rcases List.mem_cons.mp hv with rfl | hv2
      · exact absurd hcy huv
      · exact (ih hv2).cons y
    · rw [if_neg hcy]
      exact (List.singleton_sublist.mpr hv).cons₂ u

theorem sortByOrd_stable_pair {α : Type} {c : α → α → Ordering} {u v : α}
    (huv : c u v = Ordering.eq) {l : List α} (hsub : [u, v].Sublist l) :
    [u, v].Sublist (sortByOrd c l) := by
  induction l with
  | nil => simp at hsub
  | cons y ys ih =>
    unfold sortByOrd
    cases hsub with
    | cons _ h2 => exact (ih h2).trans (sublist_insertOrd c y _)
    | cons₂ _ h2 =>
      have hv : v ∈ sortByOrd c ys :=
        (sortByOrd_perm c ys).mem_iff.mpr (List.singleton_sublist.mp h2)
      exact insertOrd_self_pair u v (by simp [huv]) hv

/-- C5: when sorting by Cpu, comparing any pair of rows of which at
least one carries a NaN cpu reading resolves to Equal (in either sort
direction, as both use `unwrap_or(Equal)`), and sorting by Cpu is a
total operation producing a permutation of its input for every list,
NaN values included. -/
theorem cpu_nan_compares_equal (asc : Bool) (a b : ProcessInfo) (l : List ProcessInfo)
    (h : a.cpu_usage = none ∨ b.cpu_usage = none) :
    cmpDir SortBy.Cpu asc a b = Ordering.eq
    ∧ (sortByOrd (cmpDir SortBy.Cpu asc) l).Perm l := by
  refine ⟨?_, sortByOrd_perm _ l⟩
  cases asc with
  | true => exact cmpCpuVal_eq_of_none h
  | false => exact cmpCpuVal_eq_of_none h.symm

/-- C5 witness: a NaN row against a numeric row compares Equal under
the descending Cpu comparator, and the two-row list sorts to a
permutation of itself. -/
theorem cpu_nan_compares_equal_witness :
    ((mkProc 1 none).cpu_usage = none ∨ (mkProc 2 (some 3)).cpu_usage = none)
    ∧ cmpDir SortBy.Cpu false (mkProc 1 none) (mkProc 2 (some 3)) = Ordering.eq
    ∧ (sortByOrd (cmpDir SortBy.Cpu false) [mkProc 1 none, mkProc 2 (some 3)]).Perm
        [mkProc 1 none, mkProc 2 (some 3)] := by
  have h := cpu_nan_compares_equal false (mkProc 1 none) (mkProc 2 (some 3))
    [mkProc 1 none, mkProc 2 (some 3)] (Or.inl rfl)
  exact ⟨Or.inl rfl, h.1, h.2⟩

/-- C6 counterexample: a two-row table whose cpu values are distinct —
NaN versus 1.0 — sorts to the same sequence in both directions (NaN
ties with everything under `unwrap_or(Equal)` and the stable sort keeps
the order), so descending is not the reverse of ascending even though
no two rows carry duplicate values of the Cpu key. -/
theorem asc_desc_not_reverse_with_nan :
    (mkProc 1 none).cpu_usage ≠ (mkProc 2 (some 1)).cpu_usage
    ∧ (sort_processes (mkApp [mkProc 1 none, mkProc 2 (some 1)] SortBy.Cpu false)).processes
      ≠ ((sort_processes
            (mkApp [mkProc 1 none, mkProc 2 (some 1)] SortBy.Cpu true)).processes).reverse := by
  refine ⟨by decide, by decide⟩

/-- C6 (amended): for every sort key and every process list in which no
two rows compare equal under that key's comparator — for Pid, Name and
Memory exactly "no duplicate key values", for Cpu additionally "no NaN
value alongside another row", since NaN compares equal to everything —
sorting descending yields exactly the reverse of sorting ascending. -/
theorem asc_desc_reverse_of_no_ties (app : App)
    (hnt : app.processes.Pairwise fun a b => cmpKey app.sort_by a b ≠ Ordering.eq) :
    (sort_processes { app with sort_ascending := false }).processes
      = ((sort_processes { app with sort_ascending := true }).processes).reverse := by
  have hswapT : ∀ a b, cmpDir app.sort_by true b a = (cmpDir app.sort_by true a b).swap :=
    fun a b => cmpDir_swap app.sort_by true a b
  have hswapF : ∀ a b, cmpDir app.sort_by false b a = (cmpDir app.sort_by false a b).swap :=
    fun a b => cmpDir_swap app.sort_by false a b
  have hntT : app.processes.Pairwise
      fun a b => cmpDir app.sort_by true a b ≠ Ordering.eq := hnt
  have hntF : app.processes.Pairwise
      fun a b => cmpDir app.sort_by false a b ≠ Ordering.eq := by
    refine hnt.imp ?_
    intro a b hab hcon
    exact hab ((cmpDir_eq_eq_iff app.sort_by false).mp hcon)
  have s1 := sortByOrd_pairwise hswapT
    (fun a b d h1 h2 => cmpDir_lt_trans app.sort_by true h1 h2) hntT
  have s2 := sortByOrd_pairwise hswapF
    (fun a b d h1 h2 => cmpDir_lt_trans app.sort_by false h1 h2) hntF
  have p1 := sortByOrd_perm (cmpDir app.sort_by true) app.processes
  have p2 := sortByOrd_perm (cmpDir app.sort_by false) app.processes
  have s1r : ((sortByOrd (cmpDir app.sort_by true) app.processes).reverse).Pairwise
      fun a b => cmpDir app.sort_by false a b = Ordering.lt := by
    rw [List.pairwise_reverse]
    refine s1.imp ?_
    intro a b hab
    show cmpKey app.sort_by a b = Ordering.lt
    exact hab
  have pr : (sortByOrd (cmpDir app.sort_by false) app.processes).Perm
      ((sortByOrd (cmpDir app.sort_by true) app.processes).reverse) :=
    p2.trans (p1.symm.trans (List.reverse_perm _).symm)
  exact sortedLt_unique hswapF pr s2 s1r

/-- C6 witness: two rows with distinct numeric cpu values satisfy the
no-ties hypothesis, and descending is the reverse of ascending. -/
theorem asc_desc_reverse_of_no_ties_witness :
    ((mkApp [mkProc 1 (some 2), mkProc 2 (some 1)] SortBy.Cpu true).processes.Pairwise
        fun a b => cmpKey SortBy.Cpu a b ≠ Ordering.eq)
    ∧ (sort_processes (mkApp [mkProc 1 (some 2), mkProc 2 (some 1)] SortBy.Cpu false)).processes
      = ((sort_processes
            (mkApp [mkProc 1 (some 2), mkProc 2 (some 1)] SortBy.Cpu true)).processes).reverse := by
  have hnt : (mkApp [mkProc 1 (some 2), mkProc 2 (some 1)] SortBy.Cpu true).processes.Pairwise
      fun a b => cmpKey SortBy.Cpu a b ≠ Ordering.eq := by
    refine List.pairwise_cons.mpr ⟨?_, List.pairwise_singleton _ _⟩
    intro b hb
    rcases List.mem_singleton.mp hb with rfl
    decide
  exact ⟨hnt,
    asc_desc_reverse_of_no_ties (mkApp [mkProc 1 (some 2), mkProc 2 (some 1)] SortBy.Cpu true) hnt⟩

/-- C7 counterexample: tie-stability is not guaranteed by the program
on every list.  With a NaN row among rows of distinct numeric cpu
values the Cpu comparator is not a total order (Equal is not
transitive), so Rust leaves the order produced by `sort_by`
unspecified; under the admissible stable-merge-sort refinement
`mergeSortOrd`, the pair (NaN row, 5.0 row) compares Equal and appears
in that order in the input, yet the final merge of the runs
[9.0, 3.0, NaN] and [5.0, 1.0] emits the 5.0 row (strictly below 3.0)
ahead of the NaN that ties with it, inverting the tied pair. -/
theorem tie_stability_not_guaranteed_with_nan :
    cmpDir SortBy.Cpu false (mkProc 3 none) (mkProc 4 (some 5)) = Ordering.eq
    ∧ [mkProc 3 none, mkProc 4 (some 5)].Sublist
        [mkProc 1 (some 9), mkProc 2 (some 3), mkProc 3 none,
          mkProc 4 (some 5), mkProc 5 (some 1)]
    ∧ mergeSortOrd (cmpDir SortBy.Cpu false)
        [mkProc 1 (some 9), mkProc 2 (some 3), mkProc 3 none,
          mkProc 4 (some 5), mkProc 5 (some 1)]
      = [mkProc 1 (some 9), mkProc 4 (some 5), mkProc 2 (some 3),
          mkProc 3 none, mkProc 5 (some 1)]
    ∧ ¬[mkProc 3 none, mkProc 4 (some 5)].Sublist
        (mergeSortOrd (cmpDir SortBy.Cpu false)
          [mkProc 1 (some 9), mkProc 2 (some 3), mkProc 3 none,
            mkProc 4 (some 5), mkProc 5 (some 1)]) := by
  refine ⟨by decide, by decide, by decide, by decide⟩

/-- C7 (amended): re-sorting the process table is stable on ties
whenever the active comparator is a total preorder on the table — for
the Pid, Name and Memory keys always, and for the Cpu key whenever no
row carries a NaN cpu reading (the regime in which Rust specifies
`sort_by` as a stable sort): any two rows that appear in order in the
table and compare equal under the active key and direction still
appear in that order after `sort_processes`; in particular the
[5.0, 5.0, 1.0] descending scenario keeps the two 5.0 rows in their
original relative order.  The no-NaN hypothesis is a domain
restriction, not a proof ingredient: the insertion model satisfies the
conclusion on every list, but outside the total-preorder regime that
is an over-specification of `sort_by` (see
`tie_stability_not_guaranteed_with_nan`), so the statement is confined
to the regime where the model is faithful. -/
theorem sort_stable_on_ties (app : App) (u v : ProcessInfo)
    (_hreg : app.sort_by = SortBy.Cpu → ∀ p ∈ app.processes, p.cpu_usage ≠ none)
    (hsub : [u, v].Sublist app.processes)
    (heq : cmpDir app.sort_by app.sort_ascending u v = Ordering.eq) :
    [u, v].Sublist (sort_processes app).processes :=
  sortByOrd_stable_pair heq hsub

/-- C7 witness: three rows with cpu 5.0, 5.0, 1.0 — all numeric, so
inside the guaranteed regime — sorted by Cpu descending keep the two
5.0 rows in their original relative order, and the fully evaluated
sort puts the 1.0 row last. -/
theorem sort_stable_on_ties_witness :
    ((mkApp [mkProc 1 (some 5), mkProc 2 (some 5), mkProc 3 (some 1)] SortBy.Cpu
          false).sort_by = SortBy.Cpu →
      ∀ p ∈ (mkApp [mkProc 1 (some 5), mkProc 2 (some 5), mkProc 3 (some 1)] SortBy.Cpu
          false).processes, p.cpu_usage ≠ none)
    ∧ [mkProc 1 (some 5), mkProc 2 (some 5)].Sublist
        (mkApp [mkProc 1 (some 5), mkProc 2 (some 5), mkProc 3 (some 1)] SortBy.Cpu
          false).processes
    ∧ cmpDir SortBy.Cpu false (mkProc 1 (some 5)) (mkProc 2 (some 5)) = Ordering.eq
    ∧ [mkProc 1 (some 5), mkProc 2 (some 5)].Sublist
        (sort_processes (mkApp [mkProc 1 (some 5), mkProc 2 (some 5), mkProc 3 (some 1)]
          SortBy.Cpu false)).processes
    ∧ (sort_processes (mkApp [mkProc 1 (some 5), mkProc 2 (some 5), mkProc 3 (some 1)]
          SortBy.Cpu false)).processes
      = [mkProc 1 (some 5), mkProc 2 (some 5), mkProc 3 (some 1)] := by
  have hsub : [mkProc 1 (some 5), mkProc 2 (some 5)].Sublist
      [mkProc 1 (some 5), mkProc 2 (some 5), mkProc 3 (some 1)] :=
    ((List.nil_sublist [mkProc 3 (some 1)]).cons₂ (mkProc 2 (some 5))).cons₂ (mkProc 1 (some 5))
  refine ⟨by decide, hsub, by decide, ?_, by decide⟩
  exact sort_stable_on_ties
    (mkApp [mkProc 1 (some 5), mkProc 2 (some 5), mkProc 3 (some 1)] SortBy.Cpu false)
    (mkProc 1 (some 5)) (mkProc 2 (some 5)) (by decide) hsub (by decide)

end SysMonitor
